import Mathlib

/-!
Shallow embedding of the SafeDocs document-analysis engine (src/main.py):
the keyword-based finding extractor, the rating aggregator, the analysis
record builder, and the template chat responder, together with theorems
settling the specification claims.

Text is modelled as a list of characters.  Python's case lowering and
upper-casing are modelled on the alphabets the keyword tables and inputs
use (ASCII Latin and Cyrillic); Python's whitespace set for `str.strip`
is modelled by the full Unicode whitespace list that `str.isspace` uses.
Nondeterministic inputs of the record builder (the fresh uuid and the
wall-clock timestamp) are passed in as parameters.
-/

abbrev Str := List Char

/-- The characters Python's `str.strip` removes (the `str.isspace` set). -/
def pySpaceChars : List Char :=
  [' ', '\t', '\n', '\r', '\x0b', '\x0c', '\x1c', '\x1d', '\x1e', '\x1f',
   '\x85', '\xa0', ' ', ' ', ' ', ' ', ' ', ' ',
   ' ', ' ', ' ', ' ', ' ', ' ', ' ',
   ' ', ' ', ' ', '　']

def pyIsSpace (c : Char) : Bool := pySpaceChars.contains c

/-- Upper/lower case pairs for the alphabets the analyzer's tables use. -/
def lowerPairs : List (Char × Char) :=
  [('A', 'a'), ('B', 'b'), ('C', 'c'), ('D', 'd'), ('E', 'e'), ('F', 'f'),
   ('G', 'g'), ('H', 'h'), ('I', 'i'), ('J', 'j'), ('K', 'k'), ('L', 'l'),
   ('M', 'm'), ('N', 'n'), ('O', 'o'), ('P', 'p'), ('Q', 'q'), ('R', 'r'),
   ('S', 's'), ('T', 't'), ('U', 'u'), ('V', 'v'), ('W', 'w'), ('X', 'x'),
   ('Y', 'y'), ('Z', 'z'),
   ('А', 'а'), ('Б', 'б'), ('В', 'в'), ('Г', 'г'), ('Д', 'д'), ('Е', 'е'),
   ('Ж', 'ж'), ('З', 'з'), ('И', 'и'), ('Й', 'й'), ('К', 'к'), ('Л', 'л'),
   ('М', 'м'), ('Н', 'н'), ('О', 'о'), ('П', 'п'), ('Р', 'р'), ('С', 'с'),
   ('Т', 'т'), ('У', 'у'), ('Ф', 'ф'), ('Х', 'х'), ('Ц', 'ц'), ('Ч', 'ч'),
   ('Ш', 'ш'), ('Щ', 'щ'), ('Ъ', 'ъ'), ('Ы', 'ы'), ('Ь', 'ь'), ('Э', 'э'),
   ('Ю', 'ю'), ('Я', 'я'), ('Ё', 'ё')]

def pyLowerChar (c : Char) : Char :=
  match List.lookup c lowerPairs with
  | some d => d
  | none => c

/-- Model of Python `str.lower` (character-wise over the alphabets used). -/
def pyLower (s : Str) : Str := s.map pyLowerChar

def upperPairs : List (Char × Char) := lowerPairs.map (fun p => (p.2, p.1))

def pyUpperChar (c : Char) : Char :=
  match List.lookup c upperPairs with
  | some d => d
  | none => c

/-- Model of Python `str.upper` (character-wise over the alphabets used). -/
def pyUpper (s : Str) : Str := s.map pyUpperChar

/-- Boolean test that the first list is a leading segment of the second. -/
def pfx : Str → Str → Bool
  | [], _ => true
  | _ :: _, [] => false
  | a :: as, b :: bs => a == b && pfx as bs

/-- Model of Python `str.find`: index of the first occurrence of `needle`
as a contiguous substring of `hay`, or `none` when absent. -/
def findSub (needle : Str) (hay : Str) : Option Nat :=
  if pfx needle hay then some 0
  else
    match hay with
    | [] => none
    | _ :: t => (findSub needle t).map (fun n => n + 1)

/-- Model of Python's `in` substring test. -/
def containsSub (needle hay : Str) : Bool := (findSub needle hay).isSome

/-- Model of Python slicing `s[a:b]` for clamped bounds. -/
def pySlice (s : Str) (a b : Nat) : Str := (s.take b).drop a

/-- Model of Python `str.strip`: drop whitespace from both ends. -/
def pyStrip (s : Str) : Str :=
  ((s.dropWhile pyIsSpace).reverse.dropWhile pyIsSpace).reverse

def headNonspace : Str → Bool
  | [] => false
  | c :: _ => !(pyIsSpace c)

/-- A keyword is well-ended when neither end is whitespace (true of every
configured keyword; used by the context-window theorems). -/
def okEnds (kw : Str) : Bool := headNonspace kw && headNonspace kw.reverse

/- ### Data model (src/main.py lines 21-38, dict shapes from lines 152-206) -/

structure RiskFinding where
  type : Str
  keyword : Str
  context : Str
  severity : Str
  recommendation : Str
deriving DecidableEq

structure BenefitFinding where
  type : Str
  keyword : Str
  context : Str
  value : Str
deriving DecidableEq

structure UnclearFinding where
  phrase : Str
  context : Str
  explanation : Str
  suggestion : Str
deriving DecidableEq

structure DocumentAnalysis where
  document_id : Str
  filename : Str
  text_content : Str
  risks : List RiskFinding
  benefits : List BenefitFinding
  unclear_terms : List UnclearFinding
  overall_rating : Str
  summary : Str
  processed_at : Str
deriving DecidableEq

structure ChatMessage where
  document_id : Str
  question : Str
deriving DecidableEq

structure ChatResponse where
  answer : Str
  document_id : Str
deriving DecidableEq

structure HTTPError where
  status_code : Nat
  detail : Str
deriving DecidableEq

structure ChatExchange where
  question : Str
  answer : Str
  timestamp : Str
deriving DecidableEq

/- ### Keyword tables (src/main.py lines 135-141, 163-168, 188-192) -/

def riskPatterns : List (Str × List Str) :=
  [("штрафные санкции".data, ["штраф".data, "пеня".data, "неустойка".data, "санкции".data]),
   ("односторонние условия".data, ["односторонн".data, "в любое время".data, "по своему усмотрению".data, "вправе расторгнуть".data]),
   ("высокая ответственность".data, ["полная ответственность".data, "возмещение всех".data, "солидарная ответственность".data]),
   ("неопределенные сроки".data, ["разумный срок".data, "в кратчайшие сроки".data, "незамедлительно".data, "без промедления".data]),
   ("финансовые риски".data, ["за свой счет".data, "без возмещения".data, "безвозмездно".data, "убытки покупателя".data])]

def benefitPatterns : List (Str × List Str) :=
  [("гарантии".data, ["гарантия".data, "гарантирует".data, "обязуется".data]),
   ("защита интересов".data, ["страхование".data, "компенсация".data, "возмещение".data]),
   ("гибкие условия".data, ["по согласованию".data, "возможность изменения".data, "право выбора".data]),
   ("возврат средств".data, ["возврат".data, "возмещение платежа".data, "компенсация расходов".data])]

def unclearPatterns : List Str :=
  ["в установленном порядке".data, "соответствующие меры".data, "надлежащим образом".data,
   "разумный срок".data, "существенные нарушения".data, "форс-мажорные обстоятельства".data,
   "иные обстоятельства".data, "по обоюдному согласию".data, "в исключительных случаях".data]

def allTableKeywords : List Str :=
  riskPatterns.flatMap Prod.snd ++ benefitPatterns.flatMap Prod.snd ++ unclearPatterns

/- ### Finding construction (src/main.py lines 143-206) -/

/-- Context window around the first occurrence of the matched keyword
(src/main.py lines 147-150): find on the lower-cased text, slice the
original-case text, strip whitespace. -/
def contextAt (text tl kw : Str) : Str :=
  let start_pos := (findSub kw tl).getD 0
  let context_start := start_pos - 100
  let context_end := min text.length (start_pos + 200)
  pyStrip (pySlice text context_start context_end)

/-- Severity rule of src/main.py line 156. -/
def severityOf (kw : Str) : Str :=
  if containsSub "штраф".data kw || containsSub "полная ответственность".data kw
  then "высокий".data else "средний".data

def mkRiskFinding (text tl rt kw : Str) : RiskFinding :=
  { type := rt
    keyword := kw
    context := contextAt text tl kw
    severity := severityOf kw
    recommendation := "Рекомендуется пересмотреть условия, связанные с \x27".data ++ kw ++ "\x27".data }

/-- Value rule of src/main.py line 182. -/
def valueOf (kw : Str) : Str :=
  if containsSub "гарантия".data kw then "высокая".data else "средняя".data

def mkBenefitFinding (text tl bt kw : Str) : BenefitFinding :=
  { type := bt
    keyword := kw
    context := contextAt text tl kw
    value := valueOf kw }

def mkUnclearFinding (text tl p : Str) : UnclearFinding :=
  { phrase := p
    context := contextAt text tl p
    explanation := "Фраза \x27".data ++ p ++ "\x27 требует уточнения конкретных условий".data
    suggestion := "Рекомендуется запросить детализацию данного пункта".data }

/-- First keyword of the list contained in the lower-cased text: the inner
`for keyword in keywords: if keyword in text_lower: ...; break` loop. -/
def findKeyword (tl : Str) : List Str → Option Str
  | [] => none
  | kw :: rest => if containsSub kw tl then some kw else findKeyword tl rest

/-- One loop iteration over a (subtype, keywords) table entry: at most one
finding, for the first matching keyword (src/main.py lines 143-159). -/
def extractOneRisk (text tl rt : Str) (kws : List Str) : List RiskFinding :=
  match findKeyword tl kws with
  | some kw => [mkRiskFinding text tl rt kw]
  | none => []

def extractRisks (text tl : Str) : List RiskFinding :=
  riskPatterns.flatMap fun p => extractOneRisk text tl p.1 p.2

/-- One loop iteration for a benefit subtype (src/main.py lines 170-184). -/
def extractOneBenefit (text tl bt : Str) (kws : List Str) : List BenefitFinding :=
  match findKeyword tl kws with
  | some kw => [mkBenefitFinding text tl bt kw]
  | none => []

def extractBenefits (text tl : Str) : List BenefitFinding :=
  benefitPatterns.flatMap fun p => extractOneBenefit text tl p.1 p.2

/-- Unclear-phrase scan (src/main.py lines 194-206). -/
def extractUnclear (text tl : Str) : List UnclearFinding :=
  unclearPatterns.filterMap fun p =>
    if containsSub p tl then some (mkUnclearFinding text tl p) else none

/- ### Rating aggregation (src/main.py lines 208-219) -/

def overallRatingOf (risks : List RiskFinding) : Str :=
  let risk_count := risks.length
  let severe_risks := (risks.filter (fun r => r.severity == "высокий".data)).length
  if severe_risks > 0 then "рискован".data
  else if risk_count > 3 then "требует внимания".data
  else if risk_count > 0 then "требует внимания".data
  else "безопасен".data

/-- Summary template (src/main.py lines 222-238). -/
def summaryOf (filename : Str) (risks : List RiskFinding) (benefits : List BenefitFinding)
    (unclear_terms : List UnclearFinding) (overall_rating : Str) : Str :=
  pyStrip
    ("\nДокумент \x27".data ++ filename
      ++ "\x27 проанализирован:\n\n🔍 ОСНОВНЫЕ НАХОДКИ:\n• Рисков найдено: ".data
      ++ (Nat.repr risks.length).data
      ++ "\n• Выгодных условий: ".data ++ (Nat.repr benefits.length).data
      ++ "\n• Неясных формулировок: ".data ++ (Nat.repr unclear_terms.length).data
      ++ "\n\n⚖️ ОБЩАЯ ОЦЕНКА: ".data ++ pyUpper overall_rating
      ++ "\n\n💡 РЕКОМЕНДАЦИИ:\n".data
      ++ (if risks.any (fun r => containsSub "штраф".data r.keyword)
          then "• Обратите особое внимание на штрафные санкции".data else [])
      ++ "\n".data
      ++ (if !unclear_terms.isEmpty
          then "• Уточните неопределенные формулировки".data else [])
      ++ "\n".data
      ++ (if !benefits.isEmpty
          then "• Используйте найденные гарантии в свою пользу".data else [])
      ++ "\n\n📋 Этот анализ основан на базовых правилах. Для детального изучения рекомендуется консультация с юристом.\n        ".data)

/-- Stored text excerpt (src/main.py line 243). -/
def textExcerpt (text : Str) : Str :=
  if text.length > 2000 then text.take 2000 ++ "...".data else text

/-- Boolean suffix test: `m` is a trailing segment of `s`. -/
def hasSuffix (m s : Str) : Bool := pfx m.reverse s.reverse

/-- `AIAnalyzer.analyze_document` (src/main.py lines 128-250).  The fresh
uuid and the wall-clock timestamp are parameters of the model. -/
def analyze_document (text filename document_id processed_at : Str) : DocumentAnalysis :=
  let text_lower := pyLower text
  let risks := extractRisks text text_lower
  let benefits := extractBenefits text text_lower
  let unclear_terms := extractUnclear text text_lower
  let overall_rating := overallRatingOf risks
  { document_id := document_id
    filename := filename
    text_content := textExcerpt text
    risks := risks
    benefits := benefits
    unclear_terms := unclear_terms
    overall_rating := overall_rating
    summary := summaryOf filename risks benefits unclear_terms overall_rating
    processed_at := processed_at }

/- ### Chat responder (src/main.py lines 326-392) -/

def riskFamilyWords : List Str := ["риск".data, "опасн".data, "штраф".data]

def benefitFamilyWords : List Str := ["выгод".data, "плюс".data, "хорош".data]

def unclearFamilyWords : List Str := ["непонятн".data, "неясн".data, "что означает".data]

def decisionFamilyWords : List Str := ["подписывать".data, "согласиться".data, "стоит ли".data]

def anyContained (ws : List Str) (ql : Str) : Bool := ws.any fun w => containsSub w ql

def joinNL (xs : List Str) : Str := List.intercalate "\n".data xs

def riskFamilyAnswer (document : DocumentAnalysis) : Str :=
  let risks_text := joinNL (document.risks.map fun r => "• ".data ++ r.type ++ ": ".data ++ r.recommendation)
  if !risks_text.isEmpty
  then "🚨 В документе найдены следующие риски:\n\n".data ++ risks_text
  else "В документе не найдено серьезных рисков.".data

def benefitFamilyAnswer (document : DocumentAnalysis) : Str :=
  let benefits_text := joinNL (document.benefits.map fun b => "• ".data ++ b.type ++ ": ".data ++ b.keyword)
  if !benefits_text.isEmpty
  then "✅ Выгодные условия в документе:\n\n".data ++ benefits_text
  else "Явных выгодных условий не найдено.".data

def unclearFamilyAnswer (document : DocumentAnalysis) : Str :=
  let unclear_text := joinNL (document.unclear_terms.map fun u => "• ".data ++ u.phrase ++ ": ".data ++ u.explanation)
  if !unclear_text.isEmpty
  then "❓ Неясные формулировки:\n\n".data ++ unclear_text
  else "Все формулировки достаточно понятны.".data

def decisionFamilyAnswer (document : DocumentAnalysis) : Str :=
  "\n🤔 Рекомендация по документу:\n\nОбщая оценка: ".data ++ document.overall_rating
    ++ "\n\n".data
    ++ (if document.overall_rating != "безопасен".data
        then "⚠️ Рекомендую внимательно изучить риски перед подписанием.".data
        else "✅ Документ выглядит относительно безопасным.".data)
    ++ "\n\n💡 Советую:\n1. Проконсультироваться с юристом\n2. Обратить внимание на найденные риски\n3. Уточнить неясные формулировки\n\nПомните: это базовый анализ, окончательное решение за вами!\n        ".data

def fallbackFamilyAnswer (document : DocumentAnalysis) : Str :=
  "\n💬 Спасибо за вопрос! \n\nЯ проанализировал ваш документ \"".data ++ document.filename
    ++ "\" и могу ответить на вопросы о:\n• Рисках в договоре\n• Выгодных условиях  \n• Неясных формулировках\n• Рекомендациях по подписанию\n\nПопробуйте спросить: \"Какие есть риски?\" или \"Стоит ли подписывать?\"\n\n🔬 В разработке: полноценный AI-помощник с детальным анализом каждого пункта.\n        ".data

/-- Answer selection of `chat_with_document` (src/main.py lines 336-380):
five keyword families tested in fixed priority order, first match wins. -/
def chatAnswer (document : DocumentAnalysis) (question : Str) : Str :=
  let question_lower := pyLower question
  if anyContained riskFamilyWords question_lower then riskFamilyAnswer document
  else if anyContained benefitFamilyWords question_lower then benefitFamilyAnswer document
  else if anyContained unclearFamilyWords question_lower then unclearFamilyAnswer document
  else if anyContained decisionFamilyWords question_lower then decisionFamilyAnswer document
  else fallbackFamilyAnswer document

/-- The module-level stores `documents_storage` and `chat_history`
(src/main.py lines 64-65), as association lists keyed by document id. -/
structure ServerState where
  documents_storage : List (Str × DocumentAnalysis)
  chat_history : List (Str × List ChatExchange)
deriving DecidableEq

/-- Dict write `m[k] = v`: replace in place when the key exists, else
append the new key at the end (Python dict insertion order). -/
def setKey (m : List (Str × List ChatExchange)) (k : Str) (v : List ChatExchange) :
    List (Str × List ChatExchange) :=
  if m.any (fun p => p.1 == k) then m.map (fun p => if p.1 == k then (k, v) else p)
  else m ++ [(k, v)]

/-- The `/api/chat` endpoint `chat_with_document` (src/main.py lines
326-392): 404 on unknown id before any mutation, otherwise compute the
answer and append one exchange to the document's chat history. -/
def chat_with_document (st : ServerState) (message : ChatMessage) (now : Str) :
    ServerState × Except HTTPError ChatResponse :=
  match List.lookup message.document_id st.documents_storage with
  | none => (st, Except.error ⟨404, "Документ не найден".data⟩)
  | some document =>
    let answer := chatAnswer document message.question
    let prev := (List.lookup message.document_id st.chat_history).getD []
    ({ st with chat_history := setKey st.chat_history message.document_id
                 (prev ++ [⟨message.question, answer, now⟩]) },
     Except.ok ⟨answer, message.document_id⟩)

/-- The simplified two-tier rating rule stated by the spec (section 4.2
note): any high-severity risk gives risky, else any risk gives
needs-attention, else safe.  Comparator for the refinement claim. -/
def rateTwoTier (risks : List RiskFinding) : Str :=
  if 0 < (risks.filter (fun r => r.severity == "высокий".data)).length then "рискован".data
  else if 0 < risks.length then "требует внимания".data
  else "безопасен".data

/-- Specification of a context window for a finding triggered by `kw` in
`text`: `start` is the first match position in the lower-cased text, the
context is the stripped slice around it, is at most 300 characters long,
and its lower-casing contains the trigger. -/
def ctxSpec (text kw ctx : Str) : Prop :=
  ∃ start,
    pfx kw ((pyLower text).drop start) = true ∧
    (∀ j < start, pfx kw ((pyLower text).drop j) = false) ∧
    ctx = pyStrip (pySlice text (start - 100) (min text.length (start + 200))) ∧
    ctx.length ≤ 300 ∧
    containsSub kw (pyLower ctx) = true


/- ### Basic lemmas about the string model -/

theorem pfx_append_self : ∀ (n t : Str), pfx n (n ++ t) = true := by
  intro n t
  induction n with
  | nil => rfl
  | cons a as ih => simp [pfx, ih]

theorem pfx_iff_exists : ∀ (n h : Str), pfx n h = true ↔ ∃ t, n ++ t = h := by
  intro n
  induction n with
  | nil => intro h; simp [pfx]
  | cons a as ih =>
    intro h
    cases h with
    | nil => simp [pfx]
    | cons b bs =>
      simp only [pfx, Bool.and_eq_true, beq_iff_eq, ih bs]
      constructor
      · rintro ⟨rfl, t, rfl⟩; exact ⟨t, rfl⟩
      · rintro ⟨t, ht⟩
        simp only [List.cons_append, List.cons.injEq] at ht
        exact ⟨ht.1, t, ht.2⟩

theorem findSub_pfx : ∀ (h : Str) (n : Str) (i : Nat), findSub n h = some i →
    pfx n (h.drop i) = true := by
  intro h
  induction h with
  | nil =>
    intro n i hf
    unfold findSub at hf
    by_cases hp : pfx n [] = true
    · simp [hp] at hf; subst hf; simpa using hp
    · simp [hp] at hf
  | cons c t ih =>
    intro n i hf
    unfold findSub at hf
    by_cases hp : pfx n (c :: t) = true
    · simp [hp] at hf; subst hf; simpa using hp
    · simp [hp] at hf
      obtain ⟨i', hi', rfl⟩ := hf
      simpa using ih n i' hi'

theorem findSub_min : ∀ (h : Str) (n : Str) (i : Nat), findSub n h = some i →
    ∀ j < i, pfx n (h.drop j) = false := by
  intro h
  induction h with
  | nil =>
    intro n i hf j hj
    unfold findSub at hf
    by_cases hp : pfx n [] = true
    · simp [hp] at hf; omega
    · simp [hp] at hf
  | cons c t ih =>
    intro n i hf j hj
    unfold findSub at hf
    by_cases hp : pfx n (c :: t) = true
    · simp [hp] at hf; omega
    · simp [hp] at hf
      obtain ⟨i', hi', rfl⟩ := hf
      cases j with
      | zero => simpa using eq_false_of_ne_true hp
      | succ j' => simpa using ih n i' hi' j' (by omega)

theorem findSub_isSome_of_pfx : ∀ (i : Nat) (h n : Str), pfx n (h.drop i) = true →
    (findSub n h).isSome = true := by
  intro i
  induction i with
  | zero =>
    intro h n hp
    simp only [List.drop_zero] at hp
    unfold findSub
    simp [hp]
  | succ i' ih =>
    intro h n hp
    cases h with
    | nil =>
      simp only [List.drop_nil] at hp
      unfold findSub; simp [hp]
    | cons c t =>
      unfold findSub
      by_cases hc : pfx n (c :: t) = true
      · simp [hc]
      · simp only [List.drop_succ_cons] at hp
        simp [hc, Option.isSome_map]
        have := ih t n hp
        simpa using this

theorem findSub_bound : ∀ (h n : Str) (i : Nat), findSub n h = some i →
    i + n.length ≤ h.length := by
  intro h
  induction h with
  | nil =>
    intro n i hf
    unfold findSub at hf
    by_cases hp : pfx n [] = true
    · simp [hp] at hf
      obtain ⟨t, ht⟩ := (pfx_iff_exists n []).mp hp
      subst hf
      have hlen : n.length + t.length = 0 := by
        have := congrArg List.length ht
        simpa using this
      simp only [List.length_nil]
      omega
    · simp [hp] at hf
  | cons c t ih =>
    intro n i hf
    unfold findSub at hf
    by_cases hp : pfx n (c :: t) = true
    · simp [hp] at hf
      obtain ⟨u, hu⟩ := (pfx_iff_exists n (c :: t)).mp hp
      subst hf
      have hlen : n.length + u.length = t.length + 1 := by
        have := congrArg List.length hu
        simpa using this
      simp only [List.length_cons]
      omega
    · simp [hp] at hf
      obtain ⟨i', hi', rfl⟩ := hf
      have := ih n i' hi'
      simp
      omega

theorem containsSub_iff : ∀ (n h : Str), containsSub n h = true ↔
    ∃ i, pfx n (h.drop i) = true := by
  intro n h
  constructor
  · intro hc
    unfold containsSub at hc
    cases hf : findSub n h with
    | none => simp [hf] at hc
    | some i => exact ⟨i, findSub_pfx h n i hf⟩
  · rintro ⟨i, hi⟩
    exact findSub_isSome_of_pfx i h n hi

theorem containsSub_parts : ∀ (u kw v : Str), containsSub kw (u ++ kw ++ v) = true := by
  intro u kw v
  apply (containsSub_iff kw (u ++ kw ++ v)).mpr
  refine ⟨u.length, ?_⟩
  rw [List.append_assoc, List.drop_left]
  exact pfx_append_self kw v

theorem findKeyword_some_mem : ∀ (kws : List Str) (tl kw : Str),
    findKeyword tl kws = some kw → kw ∈ kws ∧ containsSub kw tl = true := by
  intro kws
  induction kws with
  | nil => intro tl kw h; simp [findKeyword] at h
  | cons k rest ih =>
    intro tl kw h
    unfold findKeyword at h
    by_cases hc : containsSub k tl = true
    · simp [hc] at h
      subst h
      exact ⟨List.mem_cons_self k rest, hc⟩
    · simp [hc] at h
      obtain ⟨hm, hcc⟩ := ih tl kw h
      exact ⟨List.mem_cons_of_mem k hm, hcc⟩

theorem findKeyword_first : ∀ (kws : List Str) (tl : Str) (i : Nat),
    i < kws.length → containsSub (kws.getD i []) tl = true →
    (∀ j < i, containsSub (kws.getD j []) tl = false) →
    findKeyword tl kws = some (kws.getD i []) := by
  intro kws
  induction kws with
  | nil => intro tl i hi; simp at hi
  | cons k rest ih =>
    intro tl i hi hc hmin
    cases i with
    | zero =>
      simp only [List.getD_cons_zero] at hc
      unfold findKeyword
      simp [hc]
    | succ i' =>
      have h0 : containsSub k tl = false := by
        have := hmin 0 (by omega)
        simpa using this
      unfold findKeyword
      simp only [h0, Bool.false_eq_true, if_false, List.getD_cons_succ]
      apply ih tl i' (by simpa using hi) (by simpa using hc)
      intro j hj
      have := hmin (j + 1) (by omega)
      simpa using this

theorem findKeyword_none : ∀ (kws : List Str) (tl : Str),
    (∀ kw ∈ kws, containsSub kw tl = false) → findKeyword tl kws = none := by
  intro kws
  induction kws with
  | nil => intro tl _; rfl
  | cons k rest ih =>
    intro tl h
    unfold findKeyword
    have hk := h k (List.mem_cons_self k rest)
    simp [hk]
    exact ih tl (fun kw hm => h kw (List.mem_cons_of_mem k hm))

/- ### Case lowering preserves whitespace classification -/

theorem lookup_mem_pairs : ∀ (l : List (Char × Char)) (a b : Char),
    List.lookup a l = some b → (a, b) ∈ l := by
  intro l
  induction l with
  | nil => intro a b h; simp [List.lookup] at h
  | cons p rest ih =>
    intro a b h
    rw [List.lookup_cons] at h
    by_cases he : a == p.1
    · simp [he] at h
      subst h
      have : a = p.1 := by simpa using he
      subst this
      simp
    · simp [he] at h
      exact List.mem_cons_of_mem p (ih a b h)

theorem pyIsSpace_lowerChar : ∀ c : Char, pyIsSpace (pyLowerChar c) = pyIsSpace c := by
  intro c
  unfold pyLowerChar
  cases hl : List.lookup c lowerPairs with
  | none => rfl
  | some d =>
    have hm : (c, d) ∈ lowerPairs := lookup_mem_pairs lowerPairs c d hl
    have hok : ∀ p ∈ lowerPairs, pyIsSpace p.1 = false ∧ pyIsSpace p.2 = false := by decide
    have := hok (c, d) hm
    simp only
    rw [this.1, this.2]

theorem pyLower_length : ∀ s : Str, (pyLower s).length = s.length := by
  intro s; simp [pyLower]

theorem pyLower_append : ∀ (s t : Str), pyLower (s ++ t) = pyLower s ++ pyLower t := by
  intro s t; simp [pyLower]

theorem pyLower_reverse : ∀ s : Str, pyLower s.reverse = (pyLower s).reverse := by
  intro s; simp [pyLower, List.map_reverse]

theorem pyLower_dropWhile : ∀ s : Str,
    (pyLower s).dropWhile pyIsSpace = pyLower (s.dropWhile pyIsSpace) := by
  intro s
  unfold pyLower
  rw [List.dropWhile_map]
  have : (pyIsSpace ∘ pyLowerChar) = pyIsSpace := by
    funext c; simp [pyIsSpace_lowerChar c]
  rw [this]

theorem pyLower_strip : ∀ s : Str, pyLower (pyStrip s) = pyStrip (pyLower s) := by
  intro s
  unfold pyStrip
  rw [pyLower_dropWhile, ← pyLower_reverse, pyLower_dropWhile, ← pyLower_reverse]

theorem pyLower_slice : ∀ (s : Str) (a b : Nat),
    pyLower (pySlice s a b) = pySlice (pyLower s) a b := by
  intro s a b
  unfold pySlice pyLower
  rw [List.map_drop, List.map_take]

/- ### The strip operation keeps a well-ended occurrence intact -/

theorem dropWhile_append_keep : ∀ (u : Str) (c : Char) (cs : Str),
    pyIsSpace c = false →
    ∃ u2, (u ++ c :: cs).dropWhile pyIsSpace = u2 ++ c :: cs := by
  intro u c cs hc
  induction u with
  | nil =>
    refine ⟨[], ?_⟩
    simp [List.dropWhile_cons, hc]
  | cons a u' ih =>
    by_cases ha : pyIsSpace a = true
    · obtain ⟨u2, hu2⟩ := ih
      refine ⟨u2, ?_⟩
      simpa [List.dropWhile_cons, ha] using hu2
    · refine ⟨a :: u', ?_⟩
      simp [List.dropWhile_cons, ha]

theorem strip_keeps_parts : ∀ (u w v : Str),
    headNonspace w = true → headNonspace w.reverse = true →
    ∃ u2 v2, pyStrip (u ++ w ++ v) = u2 ++ w ++ v2 := by
  intro u w v hw hwr
  cases w with
  | nil => simp [headNonspace] at hw
  | cons c cs =>
    have hc : pyIsSpace c = false := by simpa [headNonspace] using hw
    obtain ⟨u2, hu2⟩ := dropWhile_append_keep u c (cs ++ v) hc
    have hstep1 : (u ++ (c :: cs) ++ v).dropWhile pyIsSpace = u2 ++ (c :: cs) ++ v := by
      rw [List.append_assoc]
      simpa [List.append_assoc] using hu2
    cases hrev : (c :: cs).reverse with
    | nil => simp at hrev
    | cons d ds =>
      have hd : pyIsSpace d = false := by
        rw [hrev] at hwr
        simpa [headNonspace] using hwr
      have h1 : cs.reverse ++ [c] = d :: ds := by simpa using hrev
      obtain ⟨w2, hw2⟩ := dropWhile_append_keep v.reverse d (ds ++ u2.reverse) hd
      refine ⟨u2, w2.reverse, ?_⟩
      unfold pyStrip
      rw [hstep1]
      have hrw : (u2 ++ (c :: cs) ++ v).reverse = v.reverse ++ d :: (ds ++ u2.reverse) := by
        rw [List.reverse_append, List.reverse_append]
        rw [List.reverse_cons, h1]
        simp
      rw [hrw, hw2]
      have h2 : ds.reverse ++ [d] = c :: cs := by
        have := congrArg List.reverse hrev
        simpa using this.symm
      rw [List.reverse_append, List.reverse_cons, List.reverse_append]
      simp only [List.reverse_reverse]
      rw [List.append_assoc u2 ds.reverse [d], h2]

theorem length_dropWhile_le_self : ∀ (p : Char → Bool) (s : Str),
    (s.dropWhile p).length ≤ s.length := by
  intro p s
  induction s with
  | nil => simp
  | cons a t ih =>
    by_cases ha : p a = true
    · simp [List.dropWhile_cons, ha]; omega
    · simp [List.dropWhile_cons, ha]

theorem strip_length_le : ∀ s : Str, (pyStrip s).length ≤ s.length := by
  intro s
  unfold pyStrip
  have h1 := length_dropWhile_le_self pyIsSpace s
  have h2 := length_dropWhile_le_self pyIsSpace (s.dropWhile pyIsSpace).reverse
  simp only [List.length_reverse] at h2 ⊢
  omega

/- ### Slice decomposition around a matched occurrence -/

theorem slice_decomp : ∀ (w : Str) (a b start L : Nat), a ≤ start → start + L ≤ b →
    ∃ u v, pySlice w a b = u ++ ((w.drop start).take L) ++ v := by
  intro w a b start L h1 h2
  refine ⟨((w.take b).drop a).take (start - a), ((w.drop start).take (b - start)).drop L, ?_⟩
  have e1 : ((w.take b).drop a).drop (start - a) = (w.take b).drop start := by
    rw [List.drop_drop]
    congr 1
    omega
  have e2 : (w.take b).drop start = (w.drop start).take (b - start) := by
    rw [List.drop_take]
  have e3 : ((w.drop start).take (b - start)).take L = (w.drop start).take L := by
    rw [List.take_take]
    congr 1
    omega
  have key : (w.take b).drop a
      = ((w.take b).drop a).take (start - a)
        ++ ((w.drop start).take L ++ ((w.drop start).take (b - start)).drop L) := by
    conv_lhs => rw [← List.take_append_drop (start - a) ((w.take b).drop a)]
    congr 1
    rw [e1, e2]
    conv_lhs => rw [← List.take_append_drop L ((w.drop start).take (b - start))]
    rw [e3]
  unfold pySlice
  rw [List.append_assoc]
  exact key

theorem headNonspace_of_lower : ∀ (s kw : Str), pyLower s = kw → headNonspace kw = true →
    headNonspace s = true := by
  intro s kw h hk
  cases s with
  | nil =>
    subst h
    simp [pyLower, headNonspace] at hk
  | cons c cs =>
    subst h
    simp only [pyLower, List.map_cons, headNonspace] at hk ⊢
    rw [← pyIsSpace_lowerChar c]
    exact hk

/- ### The context-window property holds for any matched keyword -/

theorem ctxSpec_of_contains : ∀ (text tl kw : Str), tl = pyLower text →
    containsSub kw tl = true → okEnds kw = true → kw.length ≤ 200 →
    ctxSpec text kw (contextAt text tl kw) := by
  intro text tl kw htl hc hok hlen
  subst htl
  cases hf : findSub kw (pyLower text) with
  | none => unfold containsSub at hc; rw [hf] at hc; simp at hc
  | some start =>
    have hpfx := findSub_pfx (pyLower text) kw start hf
    have hmin := findSub_min (pyLower text) kw start hf
    have hbound := findSub_bound (pyLower text) kw start hf
    have hlentl : (pyLower text).length = text.length := pyLower_length text
    have hctx : contextAt text (pyLower text) kw
        = pyStrip (pySlice text (start - 100) (min text.length (start + 200))) := by
      simp [contextAt, hf]
    refine ⟨start, hpfx, hmin, hctx, ?_, ?_⟩
    · rw [hctx]
      have hsl : (pySlice text (start - 100) (min text.length (start + 200))).length ≤ 300 := by
        unfold pySlice
        simp only [List.length_drop, List.length_take]
        omega
      have := strip_length_le (pySlice text (start - 100) (min text.length (start + 200)))
      omega
    · have ha : start - 100 ≤ start := by omega
      have hb2 : start + kw.length ≤ min text.length (start + 200) := by omega
      obtain ⟨u, v, huv⟩ := slice_decomp text (start - 100) (min text.length (start + 200))
        start kw.length ha hb2
      have hlow : pyLower ((text.drop start).take kw.length) = kw := by
        obtain ⟨t, ht⟩ := (pfx_iff_exists kw ((pyLower text).drop start)).mp hpfx
        have htake : ((pyLower text).drop start).take kw.length = kw := by
          rw [← ht, List.take_left]
        unfold pyLower
        rw [List.map_take, List.map_drop]
        exact htake
      have hkw1 : headNonspace kw = true := by
        unfold okEnds at hok
        exact (Bool.and_eq_true _ _ |>.mp hok).1
      have hkw2 : headNonspace kw.reverse = true := by
        unfold okEnds at hok
        exact (Bool.and_eq_true _ _ |>.mp hok).2
      have hs1 : headNonspace ((text.drop start).take kw.length) = true :=
        headNonspace_of_lower _ kw hlow hkw1
      have hs2 : headNonspace ((text.drop start).take kw.length).reverse = true := by
        apply headNonspace_of_lower _ kw.reverse _ hkw2
        rw [pyLower_reverse, hlow]
      obtain ⟨u2, v2, h2⟩ := strip_keeps_parts u ((text.drop start).take kw.length) v hs1 hs2
      rw [hctx, huv, h2]
      rw [pyLower_append, pyLower_append, hlow]
      exact containsSub_parts _ _ _

/- ### Shape of the extracted finding lists -/

theorem mem_extractRisks : ∀ (text tl : Str) (f : RiskFinding), f ∈ extractRisks text tl →
    ∃ rt kws kw, (rt, kws) ∈ riskPatterns ∧ findKeyword tl kws = some kw ∧ kw ∈ kws ∧
      containsSub kw tl = true ∧ f = mkRiskFinding text tl rt kw := by
  intro text tl f hf
  unfold extractRisks at hf
  rw [List.mem_flatMap] at hf
  obtain ⟨p, hp, hfp⟩ := hf
  unfold extractOneRisk at hfp
  cases hk : findKeyword tl p.2 with
  | none => rw [hk] at hfp; simp at hfp
  | some kw =>
    rw [hk] at hfp
    simp at hfp
    obtain ⟨hm, hc⟩ := findKeyword_some_mem p.2 tl kw hk
    exact ⟨p.1, p.2, kw, by simpa using hp, hk, hm, hc, hfp⟩

theorem mem_extractBenefits : ∀ (text tl : Str) (f : BenefitFinding), f ∈ extractBenefits text tl →
    ∃ bt kws kw, (bt, kws) ∈ benefitPatterns ∧ findKeyword tl kws = some kw ∧ kw ∈ kws ∧
      containsSub kw tl = true ∧ f = mkBenefitFinding text tl bt kw := by
  intro text tl f hf
  unfold extractBenefits at hf
  rw [List.mem_flatMap] at hf
  obtain ⟨p, hp, hfp⟩ := hf
  unfold extractOneBenefit at hfp
  cases hk : findKeyword tl p.2 with
  | none => rw [hk] at hfp; simp at hfp
  | some kw =>
    rw [hk] at hfp
    simp at hfp
    obtain ⟨hm, hc⟩ := findKeyword_some_mem p.2 tl kw hk
    exact ⟨p.1, p.2, kw, by simpa using hp, hk, hm, hc, hfp⟩

theorem mem_extractUnclear : ∀ (text tl : Str) (f : UnclearFinding), f ∈ extractUnclear text tl →
    ∃ p, p ∈ unclearPatterns ∧ containsSub p tl = true ∧ f = mkUnclearFinding text tl p := by
  intro text tl f hf
  unfold extractUnclear at hf
  rw [List.mem_filterMap] at hf
  obtain ⟨p, hp, hfp⟩ := hf
  by_cases hc : containsSub p tl = true
  · simp [hc] at hfp
    exact ⟨p, hp, hc, hfp.symm⟩
  · simp [hc] at hfp

/-- Every configured keyword is nonempty with non-whitespace ends and at
most 200 characters long. -/
theorem allTableKeywords_ok : ∀ kw ∈ allTableKeywords, okEnds kw = true ∧ kw.length ≤ 200 := by
  decide

theorem type_extractOneRisk : ∀ (text tl a : Str) (kws : List Str) (f : RiskFinding),
    f ∈ extractOneRisk text tl a kws → f.type = a := by
  intro text tl a kws f hf
  unfold extractOneRisk at hf
  cases hk : findKeyword tl kws with
  | none => rw [hk] at hf; simp at hf
  | some kw => rw [hk] at hf; simp at hf; subst hf; rfl

theorem type_extractOneBenefit : ∀ (text tl a : Str) (kws : List Str) (f : BenefitFinding),
    f ∈ extractOneBenefit text tl a kws → f.type = a := by
  intro text tl a kws f hf
  unfold extractOneBenefit at hf
  cases hk : findKeyword tl kws with
  | none => rw [hk] at hf; simp at hf
  | some kw => rw [hk] at hf; simp at hf; subst hf; rfl

theorem filter_extractRisks_eq : ∀ (text tl : Str) (tbl : List (Str × List Str))
    (rt : Str) (kws : List Str), (tbl.map Prod.fst).Nodup → (rt, kws) ∈ tbl →
    (tbl.flatMap fun p => extractOneRisk text tl p.1 p.2).filter (fun r => r.type == rt)
      = extractOneRisk text tl rt kws := by
  intro text tl tbl
  induction tbl with
  | nil => intro rt kws _ hm; simp at hm
  | cons p rest ih =>
    intro rt kws hnd hm
    rw [List.map_cons, List.nodup_cons] at hnd
    obtain ⟨hnotin, hnd2⟩ := hnd
    rw [List.flatMap_cons, List.filter_append]
    rcases List.mem_cons.mp hm with heq | hrest
    · have hp : p = (rt, kws) := heq.symm
      subst hp
      have hself : (extractOneRisk text tl rt kws).filter (fun r => r.type == rt)
          = extractOneRisk text tl rt kws := by
        rw [List.filter_eq_self]
        intro f hf
        have := type_extractOneRisk text tl rt kws f hf
        simp [this]
      have hnil : ((rest.flatMap fun p => extractOneRisk text tl p.1 p.2).filter
          (fun r => r.type == rt)) = [] := by
        rw [List.filter_eq_nil_iff]
        intro f hf
        rw [List.mem_flatMap] at hf
        obtain ⟨q, hq, hfq⟩ := hf
        have hty := type_extractOneRisk text tl q.1 q.2 f hfq
        have hq1 : q.1 ∈ rest.map Prod.fst := List.mem_map.mpr ⟨q, hq, rfl⟩
        have hne : q.1 ≠ rt := by
          intro hcontra
          exact hnotin (hcontra ▸ hq1)
        simp [hty, hne]
      rw [hself, hnil, List.append_nil]
    · have hrt : rt ∈ rest.map Prod.fst := List.mem_map.mpr ⟨(rt, kws), hrest, rfl⟩
      have hne : p.1 ≠ rt := by
        intro hcontra
        exact hnotin (hcontra ▸ hrt)
      have hnil : (extractOneRisk text tl p.1 p.2).filter (fun r => r.type == rt) = [] := by
        rw [List.filter_eq_nil_iff]
        intro f hf
        have hty := type_extractOneRisk text tl p.1 p.2 f hf
        simp [hty, hne]
      rw [hnil, List.nil_append]
      exact ih rt kws hnd2 hrest

theorem filter_extractBenefits_eq : ∀ (text tl : Str) (tbl : List (Str × List Str))
    (rt : Str) (kws : List Str), (tbl.map Prod.fst).Nodup → (rt, kws) ∈ tbl →
    (tbl.flatMap fun p => extractOneBenefit text tl p.1 p.2).filter (fun r => r.type == rt)
      = extractOneBenefit text tl rt kws := by
  intro text tl tbl
  induction tbl with
  | nil => intro rt kws _ hm; simp at hm
  | cons p rest ih =>
    intro rt kws hnd hm
    rw [List.map_cons, List.nodup_cons] at hnd
    obtain ⟨hnotin, hnd2⟩ := hnd
    rw [List.flatMap_cons, List.filter_append]
    rcases List.mem_cons.mp hm with heq | hrest
    · have hp : p = (rt, kws) := heq.symm
      subst hp
      have hself : (extractOneBenefit text tl rt kws).filter (fun r => r.type == rt)
          = extractOneBenefit text tl rt kws := by
        rw [List.filter_eq_self]
        intro f hf
        have := type_extractOneBenefit text tl rt kws f hf
        simp [this]
      have hnil : ((rest.flatMap fun p => extractOneBenefit text tl p.1 p.2).filter
          (fun r => r.type == rt)) = [] := by
        rw [List.filter_eq_nil_iff]
        intro f hf
        rw [List.mem_flatMap] at hf
        obtain ⟨q, hq, hfq⟩ := hf
        have hty := type_extractOneBenefit text tl q.1 q.2 f hfq
        have hq1 : q.1 ∈ rest.map Prod.fst := List.mem_map.mpr ⟨q, hq, rfl⟩
        have hne : q.1 ≠ rt := by
          intro hcontra
          exact hnotin (hcontra ▸ hq1)
        simp [hty, hne]
      rw [hself, hnil, List.append_nil]
    · have hrt : rt ∈ rest.map Prod.fst := List.mem_map.mpr ⟨(rt, kws), hrest, rfl⟩
      have hne : p.1 ≠ rt := by
        intro hcontra
        exact hnotin (hcontra ▸ hrt)
      have hnil : (extractOneBenefit text tl p.1 p.2).filter (fun r => r.type == rt) = [] := by
        rw [List.filter_eq_nil_iff]
        intro f hf
        have hty := type_extractOneBenefit text tl p.1 p.2 f hf
        simp [hty, hne]
      rw [hnil, List.nil_append]
      exact ih rt kws hnd2 hrest

/- ### Rating aggregation lemmas -/

theorem filter_length_pos_iff_any : ∀ (l : List RiskFinding) (p : RiskFinding → Bool),
    (0 < (l.filter p).length) ↔ (l.any p = true) := by
  intro l p
  constructor
  · intro h
    obtain ⟨x, hx⟩ := List.exists_mem_of_length_pos h
    rw [List.mem_filter] at hx
    exact List.any_eq_true.mpr ⟨x, hx.1, hx.2⟩
  · intro h
    obtain ⟨x, hx, hp⟩ := List.any_eq_true.mp h
    exact List.length_pos_of_mem (List.mem_filter.mpr ⟨hx, hp⟩)

theorem overallRatingOf_cases : ∀ l : List RiskFinding,
    overallRatingOf l
      = (if l.any (fun r => r.severity == "высокий".data) then "рискован".data
         else if 0 < l.length then "требует внимания".data
         else "безопасен".data) := by
  intro l
  unfold overallRatingOf
  by_cases ha : l.any (fun r => r.severity == "высокий".data) = true
  · have h2 := (filter_length_pos_iff_any l _).mpr ha
    simp only [ha, if_true, gt_iff_lt]
    rw [if_pos h2]
  · have h2 : ¬ 0 < (l.filter (fun r => r.severity == "высокий".data)).length :=
      fun hc => ha ((filter_length_pos_iff_any l _).mp hc)
    simp only [gt_iff_lt]
    rw [if_neg h2, if_neg ha]
    split_ifs <;> first | rfl | omega

/- ### Empty extraction when no keyword is contained -/

theorem extractRisks_nil_of_none : ∀ (text tl : Str) (tbl : List (Str × List Str)),
    (∀ p ∈ tbl, ∀ kw ∈ p.2, containsSub kw tl = false) →
    (tbl.flatMap fun p => extractOneRisk text tl p.1 p.2) = [] := by
  intro text tl tbl h
  induction tbl with
  | nil => rfl
  | cons p rest ih =>
    rw [List.flatMap_cons]
    have h1 : extractOneRisk text tl p.1 p.2 = [] := by
      unfold extractOneRisk
      rw [findKeyword_none p.2 tl (h p (List.mem_cons_self p rest))]
    rw [h1, List.nil_append]
    exact ih fun q hq => h q (List.mem_cons_of_mem p hq)

theorem extractBenefits_nil_of_none : ∀ (text tl : Str) (tbl : List (Str × List Str)),
    (∀ p ∈ tbl, ∀ kw ∈ p.2, containsSub kw tl = false) →
    (tbl.flatMap fun p => extractOneBenefit text tl p.1 p.2) = [] := by
  intro text tl tbl h
  induction tbl with
  | nil => rfl
  | cons p rest ih =>
    rw [List.flatMap_cons]
    have h1 : extractOneBenefit text tl p.1 p.2 = [] := by
      unfold extractOneBenefit
      rw [findKeyword_none p.2 tl (h p (List.mem_cons_self p rest))]
    rw [h1, List.nil_append]
    exact ih fun q hq => h q (List.mem_cons_of_mem p hq)

/- ### Sublist structure of the finding lists -/

theorem risks_type_sublist : ∀ (text tl : Str) (tbl : List (Str × List Str)),
    ((tbl.flatMap fun p => extractOneRisk text tl p.1 p.2).map (fun r => r.type)).Sublist
      (tbl.map Prod.fst) := by
  intro text tl tbl
  induction tbl with
  | nil => simp
  | cons p rest ih =>
    rw [List.flatMap_cons, List.map_append, List.map_cons]
    unfold extractOneRisk
    cases findKeyword tl p.2 with
    | none => simpa using List.Sublist.cons p.1 ih
    | some kw =>
      simp only [List.map_cons, List.map_nil, List.cons_append, List.nil_append]
      exact List.Sublist.cons₂ p.1 ih

theorem benefits_type_sublist : ∀ (text tl : Str) (tbl : List (Str × List Str)),
    ((tbl.flatMap fun p => extractOneBenefit text tl p.1 p.2).map (fun r => r.type)).Sublist
      (tbl.map Prod.fst) := by
  intro text tl tbl
  induction tbl with
  | nil => simp
  | cons p rest ih =>
    rw [List.flatMap_cons, List.map_append, List.map_cons]
    unfold extractOneBenefit
    cases findKeyword tl p.2 with
    | none => simpa using List.Sublist.cons p.1 ih
    | some kw =>
      simp only [List.map_cons, List.map_nil, List.cons_append, List.nil_append]
      exact List.Sublist.cons₂ p.1 ih

theorem unclear_phrase_sublist : ∀ (text tl : Str) (ps : List Str),
    ((ps.filterMap fun p =>
        if containsSub p tl then some (mkUnclearFinding text tl p) else none).map
      (fun u => u.phrase)).Sublist ps := by
  intro text tl ps
  induction ps with
  | nil => simp
  | cons q rest ih =>
    rw [List.filterMap_cons]
    by_cases hc : containsSub q tl = true
    · simp only [hc, if_true, List.map_cons]
      exact List.Sublist.cons₂ q ih
    · rw [if_neg hc]
      exact List.Sublist.cons q ih

/- ### Claim C7 -/

/-- C7: for every list of risk findings, the implemented rating — high
severity wins, then the redundant more-than-3 branch, then any risk, then
safe — is extensionally equal to the two-tier rule from the spec; the
more-than-3 branch never changes the outcome. -/
theorem rating_redundant_branch_equiv : ∀ risks : List RiskFinding,
    overallRatingOf risks = rateTwoTier risks := by
  intro risks
  rw [overallRatingOf_cases]
  unfold rateTwoTier
  by_cases ha : risks.any (fun r => r.severity == "высокий".data) = true
  · rw [if_pos ((filter_length_pos_iff_any risks _).mpr ha)]
    simp [ha]
  · rw [if_neg (fun hc => ha ((filter_length_pos_iff_any risks _).mp hc))]
    simp [ha]

/- ### Claim C10 -/

/-- C10: for every input, at most 5 risk findings, 4 benefit findings and
9 unclear-term findings are produced — one per configuration-table entry —
and each list follows the table's declared iteration order (its projected
labels form a sublist of the table's keys). -/
theorem findings_bounded_by_tables : ∀ (text filename document_id processed_at : Str),
    ((analyze_document text filename document_id processed_at).risks.map
        (fun r => r.type)).Sublist (riskPatterns.map Prod.fst) ∧
    (analyze_document text filename document_id processed_at).risks.length ≤ 5 ∧
    ((analyze_document text filename document_id processed_at).benefits.map
        (fun b => b.type)).Sublist (benefitPatterns.map Prod.fst) ∧
    (analyze_document text filename document_id processed_at).benefits.length ≤ 4 ∧
    ((analyze_document text filename document_id processed_at).unclear_terms.map
        (fun u => u.phrase)).Sublist unclearPatterns ∧
    (analyze_document text filename document_id processed_at).unclear_terms.length ≤ 9 := by
  intro text filename document_id processed_at
  have h1 := risks_type_sublist text (pyLower text) riskPatterns
  have h2 := benefits_type_sublist text (pyLower text) benefitPatterns
  have h3 := unclear_phrase_sublist text (pyLower text) unclearPatterns
  have hl1 := h1.length_le
  have hl2 := h2.length_le
  have hl3 := h3.length_le
  simp only [List.length_map] at hl1 hl2 hl3
  have e1 : riskPatterns.length = 5 := rfl
  have e2 : benefitPatterns.length = 4 := rfl
  have e3 : unclearPatterns.length = 9 := rfl
  rw [e1] at hl1
  rw [e2] at hl2
  rw [e3] at hl3
  exact ⟨h1, hl1, h2, hl2, h3, hl3⟩

/- ### Claim C9 -/

/-- C9: the analyzer and responder are total over arbitrary strings: for
every input text (empty included) the analyzer yields a record whose
rating is one of the three levels, and for every stored analysis and
question the responder yields one of the five family answers. -/
theorem analyzer_responder_total : ∀ (text filename document_id processed_at : Str)
    (doc : DocumentAnalysis) (q : Str),
    (analyze_document text filename document_id processed_at).overall_rating
        ∈ ["безопасен".data, "требует внимания".data, "рискован".data] ∧
    chatAnswer doc q ∈ [riskFamilyAnswer doc, benefitFamilyAnswer doc, unclearFamilyAnswer doc,
        decisionFamilyAnswer doc, fallbackFamilyAnswer doc] := by
  intro text filename document_id processed_at doc q
  constructor
  · show overallRatingOf (extractRisks text (pyLower text)) ∈ _
    simp only [overallRatingOf]
    split_ifs <;> simp
  · simp only [chatAnswer]
    split_ifs <;> simp

/- ### Claim C8 -/

/-- C8: for every text containing none of the configured keywords — the
empty string included — extraction returns three empty lists and the
rating is safe. -/
theorem no_keywords_empty_and_safe : ∀ (text filename document_id processed_at : Str),
    (∀ kw ∈ allTableKeywords, containsSub kw (pyLower text) = false) →
    (analyze_document text filename document_id processed_at).risks = [] ∧
    (analyze_document text filename document_id processed_at).benefits = [] ∧
    (analyze_document text filename document_id processed_at).unclear_terms = [] ∧
    (analyze_document text filename document_id processed_at).overall_rating = "безопасен".data := by
  intro text filename document_id processed_at h
  have hr : ∀ p ∈ riskPatterns, ∀ kw ∈ p.2, containsSub kw (pyLower text) = false := by
    intro p hp kw hkw
    apply h
    unfold allTableKeywords
    exact List.mem_append_left _ (List.mem_append_left _ (List.mem_flatMap.mpr ⟨p, hp, hkw⟩))
  have hb : ∀ p ∈ benefitPatterns, ∀ kw ∈ p.2, containsSub kw (pyLower text) = false := by
    intro p hp kw hkw
    apply h
    unfold allTableKeywords
    exact List.mem_append_left _ (List.mem_append_right _ (List.mem_flatMap.mpr ⟨p, hp, hkw⟩))
  have hu : ∀ p ∈ unclearPatterns, containsSub p (pyLower text) = false := by
    intro p hp
    apply h
    unfold allTableKeywords
    exact List.mem_append_right _ hp
  have h1 : extractRisks text (pyLower text) = [] := by
    unfold extractRisks
    exact extractRisks_nil_of_none text (pyLower text) riskPatterns hr
  have h2 : extractBenefits text (pyLower text) = [] := by
    unfold extractBenefits
    exact extractBenefits_nil_of_none text (pyLower text) benefitPatterns hb
  have h3 : extractUnclear text (pyLower text) = [] := by
    unfold extractUnclear
    rw [List.filterMap_eq_nil_iff]
    intro p hp
    rw [if_neg]
    rw [hu p hp]
    simp
  refine ⟨h1, h2, h3, ?_⟩
  show overallRatingOf (extractRisks text (pyLower text)) = _
  rw [h1]
  rfl

/-- Witness for C8 at the empty text. -/
theorem no_keywords_witness :
    (∀ kw ∈ allTableKeywords, containsSub kw (pyLower ([] : Str)) = false) ∧
    (analyze_document ([] : Str) "f.txt".data "id".data "ts".data).risks = [] ∧
    (analyze_document ([] : Str) "f.txt".data "id".data "ts".data).overall_rating
      = "безопасен".data :=
  ⟨by decide,
   (no_keywords_empty_and_safe ([] : Str) "f.txt".data "id".data "ts".data (by decide)).1,
   (no_keywords_empty_and_safe ([] : Str) "f.txt".data "id".data "ts".data (by decide)).2.2.2⟩

/- ### Claim C6 -/

/-- C6: a chat request whose document id is not stored fails with a 404
not-found error and leaves the chat-history store unchanged — no exchange
is appended anywhere. -/
theorem chat_unknown_document : ∀ (st : ServerState) (message : ChatMessage) (now : Str),
    List.lookup message.document_id st.documents_storage = none →
    chat_with_document st message now
        = (st, Except.error ⟨404, "Документ не найден".data⟩) ∧
    (chat_with_document st message now).1.chat_history = st.chat_history := by
  intro st message now h
  unfold chat_with_document
  rw [h]
  exact ⟨rfl, rfl⟩

/-- Witness for C6 on an empty store. -/
theorem chat_unknown_document_witness :
    List.lookup "нет".data (([] : List (Str × DocumentAnalysis))) = none ∧
    chat_with_document ⟨[], []⟩ ⟨"нет".data, "вопрос".data⟩ "ts".data
      = (⟨[], []⟩, Except.error ⟨404, "Документ не найден".data⟩) :=
  ⟨rfl, (chat_unknown_document ⟨[], []⟩ ⟨"нет".data, "вопрос".data⟩ "ts".data rfl).1⟩

/- ### Claim C5 -/

/-- C5: the chat responder tests the five keyword families in fixed
priority order — risk, benefit, ambiguity, decision, fallback — and
renders the first matching family's template only; in particular a
question matching both the risk and benefit families receives the
risk-family response. -/
theorem chat_intent_priority : ∀ (doc : DocumentAnalysis) (q : Str),
    (anyContained riskFamilyWords (pyLower q) = true →
      chatAnswer doc q = riskFamilyAnswer doc) ∧
    (anyContained riskFamilyWords (pyLower q) = false →
      anyContained benefitFamilyWords (pyLower q) = true →
      chatAnswer doc q = benefitFamilyAnswer doc) ∧
    (anyContained riskFamilyWords (pyLower q) = false →
      anyContained benefitFamilyWords (pyLower q) = false →
      anyContained unclearFamilyWords (pyLower q) = true →
      chatAnswer doc q = unclearFamilyAnswer doc) ∧
    (anyContained riskFamilyWords (pyLower q) = false →
      anyContained benefitFamilyWords (pyLower q) = false →
      anyContained unclearFamilyWords (pyLower q) = false →
      anyContained decisionFamilyWords (pyLower q) = true →
      chatAnswer doc q = decisionFamilyAnswer doc) ∧
    (anyContained riskFamilyWords (pyLower q) = false →
      anyContained benefitFamilyWords (pyLower q) = false →
      anyContained unclearFamilyWords (pyLower q) = false →
      anyContained decisionFamilyWords (pyLower q) = false →
      chatAnswer doc q = fallbackFamilyAnswer doc) ∧
    (anyContained riskFamilyWords (pyLower q) = true ∧
      anyContained benefitFamilyWords (pyLower q) = true →
      chatAnswer doc q = riskFamilyAnswer doc) := by
  intro doc q
  refine ⟨?_, ?_, ?_, ?_, ?_, ?_⟩
  · intro h1
    simp [chatAnswer, h1]
  · intro h1 h2
    simp [chatAnswer, h1, h2]
  · intro h1 h2 h3
    simp [chatAnswer, h1, h2, h3]
  · intro h1 h2 h3 h4
    simp [chatAnswer, h1, h2, h3, h4]
  · intro h1 h2 h3 h4
    simp [chatAnswer, h1, h2, h3, h4]
  · intro h
    simp [chatAnswer, h.1]

/-- Witness for C5: a question matching both the risk and the benefit
families receives the risk-family response. -/
theorem chat_intent_priority_witness :
    (anyContained riskFamilyWords (pyLower "риски и выгоды?".data) = true ∧
      anyContained benefitFamilyWords (pyLower "риски и выгоды?".data) = true) ∧
    chatAnswer (analyze_document "штраф".data "d.txt".data "id".data "ts".data)
        "риски и выгоды?".data
      = riskFamilyAnswer (analyze_document "штраф".data "d.txt".data "id".data "ts".data) :=
  ⟨by decide,
   (chat_intent_priority (analyze_document "штраф".data "d.txt".data "id".data "ts".data)
      "риски и выгоды?".data).2.2.2.2.2 (by decide)⟩

/- ### Claim C1 -/

theorem risky_any_of_high_kw : ∀ (text : Str),
    containsSub "штраф".data (pyLower text) = true ∨
      containsSub "полная ответственность".data (pyLower text) = true →
    (extractRisks text (pyLower text)).any (fun r => r.severity == "высокий".data) = true := by
  intro text h
  rw [List.any_eq_true]
  rcases h with h1 | h2
  · have hfk : findKeyword (pyLower text)
        ["штраф".data, "пеня".data, "неустойка".data, "санкции".data] = some "штраф".data := by
      unfold findKeyword
      rw [h1]
      simp
    refine ⟨mkRiskFinding text (pyLower text) "штрафные санкции".data "штраф".data, ?_, ?_⟩
    · unfold extractRisks
      rw [List.mem_flatMap]
      refine ⟨("штрафные санкции".data,
        ["штраф".data, "пеня".data, "неустойка".data, "санкции".data]), by decide, ?_⟩
      unfold extractOneRisk
      rw [hfk]
      simp
    · exact show (severityOf "штраф".data == "высокий".data) = true by decide
  · have hfk : findKeyword (pyLower text)
        ["полная ответственность".data, "возмещение всех".data,
          "солидарная ответственность".data] = some "полная ответственность".data := by
      unfold findKeyword
      rw [h2]
      simp
    refine ⟨mkRiskFinding text (pyLower text) "высокая ответственность".data
      "полная ответственность".data, ?_, ?_⟩
    · unfold extractRisks
      rw [List.mem_flatMap]
      refine ⟨("высокая ответственность".data,
        ["полная ответственность".data, "возмещение всех".data,
          "солидарная ответственность".data]), by decide, ?_⟩
      unfold extractOneRisk
      rw [hfk]
      simp
    · exact show (severityOf "полная ответственность".data == "высокий".data) = true by decide

/-- C1: the overall rating is risky when some extracted risk has high
severity, else needs-attention when any risk exists, else safe; in
particular any text containing a high-severity risk keyword ("штраф" or
"полная ответственность" in its lower-casing) is rated risky, regardless
of the other findings. -/
theorem rating_rule_and_high_kw : ∀ (text filename document_id processed_at : Str),
    ((analyze_document text filename document_id processed_at).overall_rating
      = (if (analyze_document text filename document_id processed_at).risks.any
            (fun r => r.severity == "высокий".data) then "рискован".data
         else if 0 < (analyze_document text filename document_id processed_at).risks.length
         then "требует внимания".data
         else "безопасен".data)) ∧
    ((containsSub "штраф".data (pyLower text) = true ∨
      containsSub "полная ответственность".data (pyLower text) = true) →
      (analyze_document text filename document_id processed_at).overall_rating
        = "рискован".data) := by
  intro text filename document_id processed_at
  constructor
  · show overallRatingOf (extractRisks text (pyLower text)) = _
    exact overallRatingOf_cases (extractRisks text (pyLower text))
  · intro h
    show overallRatingOf (extractRisks text (pyLower text)) = _
    rw [overallRatingOf_cases]
    rw [if_pos (risky_any_of_high_kw text h)]

/-- Witness for C1 on a text containing a high-severity keyword. -/
theorem rating_rule_witness :
    containsSub "штраф".data (pyLower "штраф взимается ежедневно".data) = true ∧
    (analyze_document "штраф взимается ежедневно".data "d.txt".data "id".data "ts".data).overall_rating
      = "рискован".data :=
  ⟨by decide,
   (rating_rule_and_high_kw "штраф взимается ежедневно".data "d.txt".data "id".data "ts".data).2
     (Or.inl (by decide))⟩

/- ### Claim C3 -/

/-- C3: each risk and each benefit subtype contributes at most one
finding; when the first contained keyword of the subtype's list (in
declared order) is at index i, the subtype's findings are exactly the one
finding built from that keyword — table order wins, not text order. -/
theorem one_finding_per_subtype : ∀ (text rt : Str) (kws : List Str),
    ((rt, kws) ∈ riskPatterns →
      ((extractRisks text (pyLower text)).filter (fun r => r.type == rt)).length ≤ 1 ∧
      ∀ i, i < kws.length → containsSub (kws.getD i []) (pyLower text) = true →
        (∀ j < i, containsSub (kws.getD j []) (pyLower text) = false) →
        (extractRisks text (pyLower text)).filter (fun r => r.type == rt)
          = [mkRiskFinding text (pyLower text) rt (kws.getD i [])]) ∧
    ((rt, kws) ∈ benefitPatterns →
      ((extractBenefits text (pyLower text)).filter (fun b => b.type == rt)).length ≤ 1 ∧
      ∀ i, i < kws.length → containsSub (kws.getD i []) (pyLower text) = true →
        (∀ j < i, containsSub (kws.getD j []) (pyLower text) = false) →
        (extractBenefits text (pyLower text)).filter (fun b => b.type == rt)
          = [mkBenefitFinding text (pyLower text) rt (kws.getD i [])]) := by
  intro text rt kws
  constructor
  · intro hm
    have hnd : (riskPatterns.map Prod.fst).Nodup := by decide
    have hfil := filter_extractRisks_eq text (pyLower text) riskPatterns rt kws hnd hm
    constructor
    · unfold extractRisks
      rw [hfil]
      unfold extractOneRisk
      cases findKeyword (pyLower text) kws <;> simp
    · intro i hi hc hmin
      have hfk := findKeyword_first kws (pyLower text) i hi hc hmin
      unfold extractRisks
      rw [hfil]
      unfold extractOneRisk
      rw [hfk]
  · intro hm
    have hnd : (benefitPatterns.map Prod.fst).Nodup := by decide
    have hfil := filter_extractBenefits_eq text (pyLower text) benefitPatterns rt kws hnd hm
    constructor
    · unfold extractBenefits
      rw [hfil]
      unfold extractOneBenefit
      cases findKeyword (pyLower text) kws <;> simp
    · intro i hi hc hmin
      have hfk := findKeyword_first kws (pyLower text) i hi hc hmin
      unfold extractBenefits
      rw [hfil]
      unfold extractOneBenefit
      rw [hfk]

/-- Witness for C3: "пеня и санкции" matches two keywords of the penalty
subtype and yields exactly the finding for "пеня", the earlier keyword in
table order; "компенсация и страхование" matches two keywords of the
protection benefit subtype and yields the finding for "страхование",
first in table order although second in the text. -/
theorem one_finding_per_subtype_witness :
    (("штрафные санкции".data,
        ["штраф".data, "пеня".data, "неустойка".data, "санкции".data]) ∈ riskPatterns ∧
      (extractRisks "пеня и санкции".data (pyLower "пеня и санкции".data)).filter
          (fun r => r.type == "штрафные санкции".data)
        = [mkRiskFinding "пеня и санкции".data (pyLower "пеня и санкции".data)
            "штрафные санкции".data "пеня".data]) ∧
    (("защита интересов".data,
        ["страхование".data, "компенсация".data, "возмещение".data]) ∈ benefitPatterns ∧
      (extractBenefits "компенсация и страхование".data
          (pyLower "компенсация и страхование".data)).filter
          (fun b => b.type == "защита интересов".data)
        = [mkBenefitFinding "компенсация и страхование".data
            (pyLower "компенсация и страхование".data)
            "защита интересов".data "страхование".data]) :=
  ⟨⟨by decide,
    ((one_finding_per_subtype "пеня и санкции".data "штрафные санкции".data
        ["штраф".data, "пеня".data, "неустойка".data, "санкции".data]).1 (by decide)).2
      1 (by decide) (by decide) (by decide)⟩,
   ⟨by decide,
    ((one_finding_per_subtype "компенсация и страхование".data "защита интересов".data
        ["страхование".data, "компенсация".data, "возмещение".data]).2 (by decide)).2
      0 (by decide) (by decide) (by decide)⟩⟩

/- ### Claim C2 -/

/-- C2, literal reading, refuted: the analyzer's stored context is sliced
from the original-case text while the trigger is matched on the
lower-cased copy, so for "Штраф начисляется ежедневно." the single risk
finding's context does not contain its recorded trigger "штраф" as an
exact substring. -/
theorem context_literal_trigger_refuted :
    (analyze_document "Штраф начисляется ежедневно.".data "d.txt".data "id".data "ts".data).risks
      = [mkRiskFinding "Штраф начисляется ежедневно.".data
          (pyLower "Штраф начисляется ежедневно.".data) "штрафные санкции".data "штраф".data] ∧
    containsSub "штраф".data
        (mkRiskFinding "Штраф начисляется ежедневно.".data
          (pyLower "Штраф начисляется ежедневно.".data)
          "штрафные санкции".data "штраф".data).context = false := by
  decide

/-- C2 (amended): for every finding of any of the three categories, there
is a first match position of the trigger in the lower-cased text such
that the context equals the original-case slice around it stripped of
whitespace, is at most 300 characters long, and contains the triggering
occurrence up to case: the lower-cased context contains the trigger. -/
theorem context_window_amended : ∀ text : Str,
    (∀ f ∈ extractRisks text (pyLower text), ctxSpec text f.keyword f.context) ∧
    (∀ f ∈ extractBenefits text (pyLower text), ctxSpec text f.keyword f.context) ∧
    (∀ f ∈ extractUnclear text (pyLower text), ctxSpec text f.phrase f.context) := by
  intro text
  refine ⟨?_, ?_, ?_⟩
  · intro f hf
    obtain ⟨rt, kws, kw, hp, hk, hm, hc, rfl⟩ := mem_extractRisks text (pyLower text) f hf
    have hall : kw ∈ allTableKeywords := by
      unfold allTableKeywords
      exact List.mem_append_left _ (List.mem_append_left _ (List.mem_flatMap.mpr ⟨(rt, kws), hp, hm⟩))
    obtain ⟨hok, hlen⟩ := allTableKeywords_ok kw hall
    exact ctxSpec_of_contains text (pyLower text) kw rfl hc hok hlen
  · intro f hf
    obtain ⟨bt, kws, kw, hp, hk, hm, hc, rfl⟩ := mem_extractBenefits text (pyLower text) f hf
    have hall : kw ∈ allTableKeywords := by
      unfold allTableKeywords
      exact List.mem_append_left _ (List.mem_append_right _ (List.mem_flatMap.mpr ⟨(bt, kws), hp, hm⟩))
    obtain ⟨hok, hlen⟩ := allTableKeywords_ok kw hall
    exact ctxSpec_of_contains text (pyLower text) kw rfl hc hok hlen
  · intro f hf
    obtain ⟨p, hp, hc, rfl⟩ := mem_extractUnclear text (pyLower text) f hf
    have hall : p ∈ allTableKeywords := by
      unfold allTableKeywords
      exact List.mem_append_right _ hp
    obtain ⟨hok, hlen⟩ := allTableKeywords_ok p hall
    exact ctxSpec_of_contains text (pyLower text) p rfl hc hok hlen

/-- Witness for C2 across the three finding categories. -/
theorem context_window_amended_witness :
    (mkRiskFinding "штраф".data (pyLower "штраф".data) "штрафные санкции".data "штраф".data
        ∈ extractRisks "штраф".data (pyLower "штраф".data) ∧
      ctxSpec "штраф".data
        (mkRiskFinding "штраф".data (pyLower "штраф".data)
          "штрафные санкции".data "штраф".data).keyword
        (mkRiskFinding "штраф".data (pyLower "штраф".data)
          "штрафные санкции".data "штраф".data).context) ∧
    (mkBenefitFinding "гарантия".data (pyLower "гарантия".data) "гарантии".data "гарантия".data
        ∈ extractBenefits "гарантия".data (pyLower "гарантия".data) ∧
      ctxSpec "гарантия".data
        (mkBenefitFinding "гарантия".data (pyLower "гарантия".data)
          "гарантии".data "гарантия".data).keyword
        (mkBenefitFinding "гарантия".data (pyLower "гарантия".data)
          "гарантии".data "гарантия".data).context) ∧
    (mkUnclearFinding "разумный срок".data (pyLower "разумный срок".data) "разумный срок".data
        ∈ extractUnclear "разумный срок".data (pyLower "разумный срок".data) ∧
      ctxSpec "разумный срок".data
        (mkUnclearFinding "разумный срок".data (pyLower "разумный срок".data)
          "разумный срок".data).phrase
        (mkUnclearFinding "разумный срок".data (pyLower "разумный срок".data)
          "разумный срок".data).context) :=
  ⟨⟨by decide, (context_window_amended "штраф".data).1 _ (by decide)⟩,
   ⟨by decide, (context_window_amended "гарантия".data).2.1 _ (by decide)⟩,
   ⟨by decide, (context_window_amended "разумный срок".data).2.2 _ (by decide)⟩⟩

/- ### Claim C4 -/

/-- C4, iff reading, refuted: a short text that itself ends with the
marker characters keeps the marker in its stored excerpt although no
truncation occurred, so marker presence does not imply truncation. -/
theorem excerpt_marker_refuted :
    hasSuffix "...".data (textExcerpt "небольшой текст...".data) = true ∧
    ¬ ("небольшой текст...".data.length > 2000) := by
  decide

/-- C4 (amended): the stored excerpt equals the first 2000 characters
followed by the marker "..." when the text is longer than 2000
characters, and the unchanged text otherwise; its length is at most
2003; truncation always leaves the marker as a suffix; and marker
presence is equivalent to truncation whenever the text does not already
end in the marker characters. -/
theorem excerpt_truncation_amended : ∀ text : Str,
    (textExcerpt text
      = (if text.length > 2000 then text.take 2000 ++ "...".data else text)) ∧
    (textExcerpt text).length ≤ 2003 ∧
    (text.length > 2000 → hasSuffix "...".data (textExcerpt text) = true) ∧
    (¬ text.length > 2000 → textExcerpt text = text) ∧
    (hasSuffix "...".data text = false →
      (hasSuffix "...".data (textExcerpt text) = true ↔ text.length > 2000)) := by
  intro text
  have hmark : ("...".data : Str).length = 3 := rfl
  refine ⟨rfl, ?_, ?_, ?_, ?_⟩
  · unfold textExcerpt
    by_cases h : text.length > 2000
    · rw [if_pos h]
      rw [List.length_append, List.length_take, hmark]
      omega
    · rw [if_neg h]
      omega
  · intro h
    unfold hasSuffix textExcerpt
    rw [if_pos h, List.reverse_append]
    exact pfx_append_self _ _
  · intro h
    unfold textExcerpt
    rw [if_neg h]
  · intro hns
    constructor
    · intro hs
      by_contra h
      have he : textExcerpt text = text := by
        unfold textExcerpt
        rw [if_neg h]
      rw [he] at hs
      unfold hasSuffix at hs hns
      rw [hs] at hns
      cases hns
    · intro h
      unfold hasSuffix textExcerpt
      rw [if_pos h, List.reverse_append]
      exact pfx_append_self _ _

/-- Witness for C4: a 2001-character text is truncated and carries the
marker; a short text is stored unchanged, and for it marker presence is
equivalent to truncation. -/
theorem excerpt_truncation_witness :
    ((List.replicate 2001 'д').length > 2000 ∧
      hasSuffix "...".data (textExcerpt (List.replicate 2001 'д')) = true) ∧
    (¬ ("абвг".data.length > 2000) ∧ textExcerpt "абвг".data = "абвг".data) ∧
    (hasSuffix "...".data "абвг".data = false ∧
      (hasSuffix "...".data (textExcerpt "абвг".data) = true ↔ "абвг".data.length > 2000)) :=
  ⟨⟨by rw [List.length_replicate]; omega,
    (excerpt_truncation_amended (List.replicate 2001 'д')).2.2.1
      (by rw [List.length_replicate]; omega)⟩,
   ⟨by decide, (excerpt_truncation_amended "абвг".data).2.2.2.1 (by decide)⟩,
   ⟨by decide, (excerpt_truncation_amended "абвг".data).2.2.2.2 (by decide)⟩⟩
